import Mathlib

/-!
Verification development for tools/mergelcp.c: an external, bounded-memory
k-way merge of (pos, lcp) records driven by a cascading multi-level driver.

The driver (main, heap_sort_level) lives in src/tools/mergelcp.c and is
embedded directly.  The priority-queue engine (heap_alloc, heap_insert,
heap_delete_min, heap_write, key, MAX_KEY) is declared in heap.h, which is
not part of the sources; those parts are modelled from the spec (sections
4.1 to 4.3): a cursor per run over pre-sorted runs, popMin returning the
globally smallest key, an exhausted cursor reporting the sentinel key, and
sentinel-based termination of each pass.

Records are modelled by their packed keys (natural numbers): ordering by
the packed key is ordering by pos then lcp, and the sentinel S is the
maximum representable key for the configured widths (MAX_KEY).  A run is a
list of keys; a merge pass operates on a list of runs.
-/

namespace MergeLcp

open scoped List

/-- Modelled from the spec (section 3, PackedKey): the packed key of a
record, pos in the more significant bits, lcp in the lower 8*lcp_size
bits. -/
def key (lcp_size pos lcp : Nat) : Nat := pos * 2 ^ (8 * lcp_size) + lcp

/-- Modelled from the spec (section 3, Sentinel): MAX_KEY for a total
record width of w bytes is the all-ones key, used by mergelcp.c line 58
as the pair sentinel. -/
def MAX_KEY (w : Nat) : Nat := 2 ^ (8 * w) - 1

/-- Modelled from the spec (section 4.3, writeOutput at level 0): the
value written by the final pass is the lcp field alone, the low
8*lcp_size bits of the packed key. -/
def lcpOf (lcp_size k : Nat) : Nat := k % 2 ^ (8 * lcp_size)

/-- Modelled from the spec (section 4.2, peekKey): the key of the next
unread record of a cursor, or the sentinel S if the cursor is
exhausted. -/
def headKey (S : Nat) (r : List Nat) : Nat := r.headD S

/-- Modelled from the spec (section 4.3): the minimum key among all
cursors, the key the heap root holds; S when every cursor is
exhausted. -/
def minHead (S : Nat) (rs : List (List Nat)) : Nat :=
  rs.foldr (fun r m => min (headKey S r) m) S

/-- Modelled from the spec (section 4.3, popMin): advance the first
cursor whose key is the minimum m, removing the emitted record from its
run. -/
def popHead (S m : Nat) : List (List Nat) → List (List Nat)
  | [] => []
  | r :: rs => if headKey S r = m then r.tail :: rs else r :: popHead S m rs

/-- Total number of records held by the cursors of a pass. -/
def totalLen : List (List Nat) → Nat
  | [] => 0
  | r :: rs => r.length + totalLen rs

/-- Modelled from the spec (section 4.3): the pop-min loop of
heap_sort_level (mergelcp.c lines 60 to 85), fuelled for structural
recursion; each iteration emits the heap minimum and advances that
cursor, and the loop ends when the minimum equals the sentinel. -/
def drainFuel (S : Nat) : Nat → List (List Nat) → List Nat
  | 0, _ => []
  | f + 1, rs =>
    if minHead S rs < S then
      minHead S rs :: drainFuel S f (popHead S (minHead S rs) rs)
    else []

/-- The sequence of records emitted by the while loop of heap_sort_level
(mergelcp.c lines 60 to 85), excluding the terminator; totalLen rs is
enough fuel since every iteration consumes one record. -/
def heap_sort_records (S : Nat) (rs : List (List Nat)) : List Nat :=
  drainFuel S (totalLen rs) rs

/-- heap_sort_level (mergelcp.c lines 38 to 101): the complete sequence
of records written by one pass, a sentinel terminator being appended at
every level other than the final level 0 (lines 87 to 90).  The counter
sum of the source is incremented once per written record, terminator
included, so the count written to the size index is the length of this
list. -/
def heap_sort_level (S level : Nat) (rs : List (List Nat)) : List Nat :=
  if level = 0 then heap_sort_records S rs else heap_sort_records S rs ++ [S]

/-- Fuelled chunking of the run list into batches of K runs, mirroring
the batching loop of main (mergelcp.c lines 219 to 255): a full batch is
merged each time K runs have been registered, and a final partial batch
is merged as well. -/
def chunkFuel (K : Nat) : Nat → List α → List (List α)
  | _, [] => []
  | 0, l => [l]
  | f + 1, l => l.take K :: chunkFuel K f (l.drop K)

/-- The batches of up to K runs processed by one level of main. -/
def chunks (K : Nat) (l : List α) : List (List α) := chunkFuel K l.length l

/-- One BATCHING level of main (mergelcp.c lines 219 to 255): every batch
of up to K runs is merged by heap_sort_level at a level other than 0,
producing one output run per batch, sentinel terminator included. -/
def doLevel (S K : Nat) (rs : List (List Nat)) : List (List Nat) :=
  (chunks K rs).map (fun b => heap_sort_level S 1 b)

/-- The blocks counter of main after one level over n input runs: it
starts at 1 and is incremented once per full batch (mergelcp.c lines 205
and 236), so it ends at 1 + n / K; the do-while loop repeats while
blocks > heap_size (line 272). -/
def blocksOf (K n : Nat) : Nat := 1 + n / K

/-- The number of output runs one level produces over n input runs,
expressed through chunks on a canonical list of length n. -/
def numChunks (K n : Nat) : Nat := (chunks K (List.range n)).length

/-- The do-while multilevel loop of main (mergelcp.c lines 200 to 272):
one level always runs, and another level follows while the blocks
counter of the level just processed exceeds K.  The conjunct 2 <= K
mirrors the startup check at lines 165 to 168, which guarantees the
loop terminates; the fuel rs.length is enough because each further
level strictly reduces the run count. -/
def levelsFuel (S K : Nat) : Nat → List (List Nat) → List (List Nat)
  | 0, rs => doLevel S K rs
  | f + 1, rs =>
    if 2 ≤ K ∧ K < blocksOf K rs.length then levelsFuel S K f (doLevel S K rs)
    else doLevel S K rs

/-- Result of a whole run of mergelcp: the keys emitted by the final
level-0 pass, the reported total (mergelcp.c line 323), and whether the
onelevel special case was taken (lines 244 to 251). -/
structure MergeOut where
  out : List Nat
  total : Nat
  onelevel : Bool
deriving DecidableEq, Repr

/-- The general multi-level path of main: run the batching levels, then
the final level-0 pass over the surviving runs (mergelcp.c lines 296 to
323). -/
def mergelcpGeneral (S K : Nat) (rs : List (List Nat)) : MergeOut :=
  ⟨heap_sort_records S (levelsFuel S K rs.length rs),
   (heap_sort_records S (levelsFuel S K rs.length rs)).length, false⟩

/-- Whole-program merge result of main (mergelcp.c lines 200 to 323).
The onelevel special case (lines 244 to 251) fires exactly when the very
first level would consist of a single partial batch, that is when
0 < run count < K: in that case the intermediate files are discarded and
the final pass reads the original input runs directly. -/
def mergelcp (S K : Nat) (rs : List (List Nat)) : MergeOut :=
  if 0 < rs.length ∧ rs.length < K then
    ⟨heap_sort_records S rs, (heap_sort_records S rs).length, true⟩
  else
    mergelcpGeneral S K rs

/-- Every run of a pass input is sorted ascending by packed key (the
invariant of spec section 3 established by upstream producers). -/
def RunsSorted (rs : List (List Nat)) : Prop := ∀ r ∈ rs, List.Sorted (· ≤ ·) r

instance (rs : List (List Nat)) : Decidable (RunsSorted rs) := by
  unfold RunsSorted; infer_instance

/-- The real (non-sentinel) records of a run: those with key below the
sentinel. -/
def realOf (S : Nat) (l : List Nat) : List Nat := l.filter (fun x => decide (x < S))

/-- The real records held by a list of runs, in run order. -/
def realContent (S : Nat) : List (List Nat) → List Nat
  | [] => []
  | r :: rs => realOf S r ++ realContent S rs

/-- Width validation of main (mergelcp.c lines 152 to 159): the run
continues iff pos_size + lcp_size <= 16 and both widths are nonzero;
the sizes are C ints parsed by atoi, hence modelled as integers. -/
def widths_ok (pos_size lcp_size : Int) : Bool :=
  if 16 < pos_size + lcp_size then false
  else if pos_size = 0 then false
  else if lcp_size = 0 then false
  else true

/-- Heap capacity validation of main (mergelcp.c lines 165 to 168). -/
def heap_size_ok (heap_size : Int) : Bool := decide (2 ≤ heap_size)

/-- The width predicate stated by the spec (section 4.1): each width in
[1, 12] bytes and the sum at most 16. -/
def specWidthsOK (pos_size lcp_size : Int) : Prop :=
  1 ≤ pos_size ∧ pos_size ≤ 12 ∧ 1 ≤ lcp_size ∧ lcp_size ≤ 12 ∧ pos_size + lcp_size ≤ 16

instance (pos_size lcp_size : Int) : Decidable (specWidthsOK pos_size lcp_size) := by
  unfold specWidthsOK; infer_instance

/-- Names of the files main creates or removes: the original input pair
and size files, the per-level intermediate pair and size files, and the
final output file. -/
inductive FName where
  | pairIn : FName
  | sizeIn : FName
  | pairL : Nat → FName
  | sizeL : Nat → FName
  | outF : FName
deriving DecidableEq, Repr

/-- A file-system operation performed by main. -/
inductive FOp where
  | create : FName → FOp
  | remove : FName → FOp
deriving DecidableEq, Repr

/-- Effect of one operation on the set of existing files: file_open with
mode wb creates the file, remove deletes it (removing an absent file is
a no-op, as in C). -/
def applyOp (s : Finset FName) : FOp → Finset FName
  | FOp.create f => insert f s
  | FOp.remove f => s.erase f

/-- Run a list of file operations over a set of existing files. -/
def runOps (s : Finset FName) : List FOp → Finset FName
  | [] => s
  | op :: ops => runOps (applyOp s op) ops

/-- File operations of one BATCHING level l: create the level output
pair and size files (mergelcp.c lines 212 to 216), and after the level
completes remove the previous level inputs when l > 1 (lines 263 to
266). -/
def levelBody (l : Nat) : List FOp :=
  [FOp.create (FName.pairL l), FOp.create (FName.sizeL l)] ++
    (if 1 < l then [FOp.remove (FName.pairL (l - 1)), FOp.remove (FName.sizeL (l - 1))]
     else [])

/-- File operations of the do-while loop of main starting at level l
with n input runs, paired with the index of the last level executed;
mirrors levelsFuel. -/
def loopOps (K : Nat) : Nat → Nat → Nat → List FOp × Nat
  | 0, l, _ => (levelBody l, l)
  | f + 1, l, n =>
    if 2 ≤ K ∧ K < blocksOf K n then
      (levelBody l ++ (loopOps K f (l + 1) (numChunks K n)).1,
       (loopOps K f (l + 1) (numChunks K n)).2)
    else (levelBody l, l)

/-- The complete file-operation trace of a successful run of main with
capacity K over n input runs.  In the onelevel special case (lines 244
to 251) the just-created empty intermediate files are removed at once;
in every case the final output is created (line 312), the last-level
intermediates are removed (lines 342 and 343) and finally the original
inputs are removed (lines 376 to 381). -/
def mainOps (K n : Nat) : List FOp :=
  if 0 < n ∧ n < K then
    [FOp.create (FName.pairL 1), FOp.create (FName.sizeL 1),
     FOp.remove (FName.sizeL 1), FOp.remove (FName.pairL 1),
     FOp.create FName.outF,
     FOp.remove (FName.pairL 1), FOp.remove (FName.sizeL 1),
     FOp.remove FName.pairIn, FOp.remove FName.sizeIn]
  else
    (loopOps K n 1 n).1 ++
      [FOp.create FName.outF,
       FOp.remove (FName.pairL (loopOps K n 1 n).2),
       FOp.remove (FName.sizeL (loopOps K n 1 n).2),
       FOp.remove FName.pairIn, FOp.remove FName.sizeIn]

/-- The files existing before main runs: the two inputs. -/
def baseFiles : Finset FName := {FName.pairIn, FName.sizeIn}

/-- The files existing after level l of the cascade has completed. -/
def levelFiles (l : Nat) : Finset FName :=
  insert (FName.pairL l) (insert (FName.sizeL l) baseFiles)

/-- The files existing when level l is entered. -/
def entryFiles (l : Nat) : Finset FName :=
  if l = 1 then baseFiles else levelFiles (l - 1)

/-- The files remaining after a successful run of main. -/
def mainFiles (K n : Nat) : Finset FName := runOps baseFiles (mainOps K n)

/-- Scenario A input (spec section 8): widths 4 and 4, three runs of
sizes 3, 3 and 2 with the listed pos-sorted contents. -/
def scenarioARuns : List (List Nat) :=
  [[key 4 0 5, key 4 1 3, key 4 2 9],
   [key 4 3 1, key 4 4 4, key 4 5 2],
   [key 4 6 8, key 4 7 0]]

/-! ## Basic equations for the fuelled definitions -/

theorem headKey_nil (S : Nat) : headKey S [] = S := rfl

theorem headKey_cons (S a : Nat) (t : List Nat) : headKey S (a :: t) = a := rfl

theorem minHead_nil (S : Nat) : minHead S [] = S := rfl

theorem minHead_cons (S : Nat) (r : List Nat) (rs : List (List Nat)) :
    minHead S (r :: rs) = min (headKey S r) (minHead S rs) := rfl

theorem popHead_nil (S m : Nat) : popHead S m [] = [] := rfl

theorem popHead_cons (S m : Nat) (r : List Nat) (rs : List (List Nat)) :
    popHead S m (r :: rs) =
      if headKey S r = m then r.tail :: rs else r :: popHead S m rs := rfl

theorem totalLen_nil : totalLen [] = 0 := rfl

theorem totalLen_cons (r : List Nat) (rs : List (List Nat)) :
    totalLen (r :: rs) = r.length + totalLen rs := rfl

theorem drainFuel_zero (S : Nat) (rs : List (List Nat)) : drainFuel S 0 rs = [] := rfl

theorem drainFuel_succ (S f : Nat) (rs : List (List Nat)) :
    drainFuel S (f + 1) rs =
      if minHead S rs < S then
        minHead S rs :: drainFuel S f (popHead S (minHead S rs) rs)
      else [] := rfl

theorem realContent_nil (S : Nat) : realContent S [] = [] := rfl

theorem realContent_cons (S : Nat) (r : List Nat) (rs : List (List Nat)) :
    realContent S (r :: rs) = realOf S r ++ realContent S rs := rfl

/-! ## Facts about the heap minimum -/

theorem minHead_le_S (S : Nat) (rs : List (List Nat)) : minHead S rs ≤ S := by
  induction rs with
  | nil => exact le_refl S
  | cons r rs ih => exact le_trans (min_le_right _ _) ih

theorem minHead_le_of_mem {S : Nat} {r : List Nat} {rs : List (List Nat)} (h : r ∈ rs) :
    minHead S rs ≤ headKey S r := by
  induction rs with
  | nil => cases h
  | cons a t ih =>
    rcases List.mem_cons.mp h with h1 | h2
    · rw [h1, minHead_cons]; exact min_le_left _ _
    · rw [minHead_cons]; exact le_trans (min_le_right _ _) (ih h2)

theorem le_minHead {S b : Nat} {rs : List (List Nat)} :
    b ≤ minHead S rs ↔ b ≤ S ∧ ∀ r ∈ rs, b ≤ headKey S r := by
  induction rs with
  | nil => simp [minHead_nil]
  | cons a t ih =>
    rw [minHead_cons, le_min_iff, ih]
    constructor
    · rintro ⟨h1, h2, h3⟩
      refine ⟨h2, ?_⟩
      intro r hr
      rcases List.mem_cons.mp hr with h4 | h4
      · rw [h4]; exact h1
      · exact h3 r h4
    · rintro ⟨h1, h2⟩
      exact ⟨h2 a (List.mem_cons_self a t), h1,
        fun r hr => h2 r (List.mem_cons_of_mem a hr)⟩

theorem exists_headKey_eq {S : Nat} {rs : List (List Nat)} (h : minHead S rs < S) :
    ∃ r ∈ rs, headKey S r = minHead S rs := by
  induction rs with
  | nil => rw [minHead_nil] at h; exact absurd h (lt_irrefl S)
  | cons a t ih =>
    rw [minHead_cons] at h ⊢
    rcases le_total (headKey S a) (minHead S t) with hle | hle
    · exact ⟨a, List.mem_cons_self a t, (min_eq_left hle).symm⟩
    · rw [min_eq_right hle] at h ⊢
      obtain ⟨r, hr, hd⟩ := ih h
      exact ⟨r, List.mem_cons_of_mem a hr, hd⟩

/-! ## Facts about advancing the minimal cursor -/

theorem totalLen_popHead {S m : Nat} {rs : List (List Nat)} (hm : m < S)
    (h : ∃ r ∈ rs, headKey S r = m) :
    totalLen (popHead S m rs) + 1 = totalLen rs := by
  induction rs with
  | nil => obtain ⟨r, hr, _⟩ := h; cases hr
  | cons a t ih =>
    rw [popHead_cons]
    by_cases ha : headKey S a = m
    · rw [if_pos ha]
      cases a with
      | nil => rw [headKey_nil] at ha; omega
      | cons x xs =>
        rw [totalLen_cons, totalLen_cons]
        simp only [List.tail_cons, List.length_cons]
        omega
    · rw [if_neg ha]
      obtain ⟨r, hr, hd⟩ := h
      rcases List.mem_cons.mp hr with h4 | h4
      · subst h4; exact absurd hd ha
      · have := ih ⟨r, h4, hd⟩
        rw [totalLen_cons, totalLen_cons]
        omega

theorem popHead_mem_cases {S m : Nat} {rs : List (List Nat)} {r : List Nat}
    (h : r ∈ popHead S m rs) :
    r ∈ rs ∨ ∃ a t, (a :: t) ∈ rs ∧ a = m ∧ r = t := by
  induction rs with
  | nil => cases h
  | cons b bs ih =>
    rw [popHead_cons] at h
    by_cases hb : headKey S b = m
    · rw [if_pos hb] at h
      rcases List.mem_cons.mp h with h2 | h2
      · cases b with
        | nil =>
          left
          rw [h2]
          exact List.mem_cons_self [] bs
        | cons x xs =>
          right
          exact ⟨x, xs, List.mem_cons_self _ _, hb, h2⟩
      · left; exact List.mem_cons_of_mem _ h2
    · rw [if_neg hb] at h
      rcases List.mem_cons.mp h with h2 | h2
      · left; rw [h2]; exact List.mem_cons_self _ _
      · rcases ih h2 with h3 | ⟨a, t, h3, h4, h5⟩
        · left; exact List.mem_cons_of_mem _ h3
        · right; exact ⟨a, t, List.mem_cons_of_mem _ h3, h4, h5⟩

theorem runsSorted_popHead {S m : Nat} {rs : List (List Nat)} (hs : RunsSorted rs) :
    RunsSorted (popHead S m rs) := by
  intro r hr
  rcases popHead_mem_cases hr with h1 | ⟨a, t, h1, _, h2⟩
  · exact hs r h1
  · rw [h2]
    exact (List.sorted_cons.mp (hs _ h1)).2

theorem minHead_le_minHead_popHead {S : Nat} {rs : List (List Nat)} (hs : RunsSorted rs)
    (hlt : minHead S rs < S) :
    minHead S rs ≤ minHead S (popHead S (minHead S rs) rs) := by
  rw [le_minHead]
  refine ⟨le_of_lt hlt, ?_⟩
  intro r hr
  rcases popHead_mem_cases hr with h1 | ⟨a, t, h1, h2, h3⟩
  · exact minHead_le_of_mem h1
  · rw [h3]
    cases t with
    | nil => rw [headKey_nil]; exact le_of_lt hlt
    | cons y ys =>
      rw [headKey_cons]
      have hy : a ≤ y :=
        (List.sorted_cons.mp (hs _ h1)).1 y (List.mem_cons_self _ _)
      omega

/-! ## The emitted sequence: bounds, sortedness, permutation -/

theorem mem_drainFuel_lt {S : Nat} : ∀ {f : Nat} {rs : List (List Nat)} {x : Nat},
    x ∈ drainFuel S f rs → x < S := by
  intro f
  induction f with
  | zero => intro rs x h; cases h
  | succ f ih =>
    intro rs x h
    rw [drainFuel_succ] at h
    split at h
    · rcases List.mem_cons.mp h with h2 | h2
      · rw [h2]; assumption
      · exact ih h2
    · cases h

theorem minHead_le_mem_drainFuel {S : Nat} : ∀ {f : Nat} {rs : List (List Nat)} {x : Nat},
    RunsSorted rs → x ∈ drainFuel S f rs → minHead S rs ≤ x := by
  intro f
  induction f with
  | zero => intro rs x _ h; cases h
  | succ f ih =>
    intro rs x hs h
    rw [drainFuel_succ] at h
    split at h
    next hlt =>
      rcases List.mem_cons.mp h with h2 | h2
      · rw [h2]
      · exact le_trans (minHead_le_minHead_popHead hs hlt)
          (ih (runsSorted_popHead hs) h2)
    next => cases h

theorem drainFuel_sorted {S : Nat} : ∀ {f : Nat} {rs : List (List Nat)},
    RunsSorted rs → List.Sorted (· ≤ ·) (drainFuel S f rs) := by
  intro f
  induction f with
  | zero => intro rs _; exact List.sorted_nil
  | succ f ih =>
    intro rs hs
    rw [drainFuel_succ]
    split
    next hlt =>
      rw [List.sorted_cons]
      refine ⟨?_, ih (runsSorted_popHead hs)⟩
      intro b hb
      exact le_trans (minHead_le_minHead_popHead hs hlt)
        (minHead_le_mem_drainFuel (runsSorted_popHead hs) hb)
    next => exact List.sorted_nil

theorem realOf_cons_of_lt {S x : Nat} (l : List Nat) (h : x < S) :
    realOf S (x :: l) = x :: realOf S l := by
  simp [realOf, List.filter_cons, h]

theorem realOf_eq_self {S : Nat} {l : List Nat} (h : ∀ x ∈ l, x < S) :
    realOf S l = l := by
  rw [realOf, List.filter_eq_self]
  intro a ha
  exact decide_eq_true (h a ha)

theorem realOf_eq_nil_of_sorted {S : Nat} {r : List Nat} (hr : List.Sorted (· ≤ ·) r)
    (h : S ≤ headKey S r) : realOf S r = [] := by
  cases r with
  | nil => rfl
  | cons a t =>
    rw [headKey_cons] at h
    rw [realOf, List.filter_eq_nil_iff]
    intro x hx
    rcases List.mem_cons.mp hx with h2 | h2
    · subst h2; simp; omega
    · have : a ≤ x := (List.sorted_cons.mp hr).1 x h2
      simp; omega

theorem realContent_append (S : Nat) (l1 l2 : List (List Nat)) :
    realContent S (l1 ++ l2) = realContent S l1 ++ realContent S l2 := by
  induction l1 with
  | nil => rfl
  | cons a t ih =>
    rw [List.cons_append, realContent_cons, realContent_cons, ih, List.append_assoc]

theorem realContent_eq_nil_of_totalLen {S : Nat} {rs : List (List Nat)}
    (h : totalLen rs = 0) : realContent S rs = [] := by
  induction rs with
  | nil => rfl
  | cons a t ih =>
    rw [totalLen_cons] at h
    have ha : a = [] := List.length_eq_zero.mp (by omega)
    rw [realContent_cons, ha]
    rw [ih (by omega)]
    rfl

theorem realContent_eq_nil_of_heads {S : Nat} : ∀ {rs : List (List Nat)},
    RunsSorted rs → (∀ r ∈ rs, S ≤ headKey S r) → realContent S rs = [] := by
  intro rs
  induction rs with
  | nil => intro _ _; rfl
  | cons a t ih =>
    intro hs hall
    rw [realContent_cons]
    rw [realOf_eq_nil_of_sorted (hs a (List.mem_cons_self a t))
      (hall a (List.mem_cons_self a t))]
    rw [List.nil_append]
    exact ih (fun r hr => hs r (List.mem_cons_of_mem a hr))
      (fun r hr => hall r (List.mem_cons_of_mem a hr))

theorem realContent_eq_nil {S : Nat} {rs : List (List Nat)} (hs : RunsSorted rs)
    (h : ¬ minHead S rs < S) : realContent S rs = [] :=
  realContent_eq_nil_of_heads hs ((le_minHead.mp (le_of_not_lt h)).2)

theorem realContent_perm_popHead {S m : Nat} {rs : List (List Nat)} (hm : m < S)
    (h : ∃ r ∈ rs, headKey S r = m) :
    realContent S rs ~ m :: realContent S (popHead S m rs) := by
  induction rs with
  | nil => obtain ⟨r, hr, _⟩ := h; cases hr
  | cons a t ih =>
    rw [popHead_cons]
    by_cases ha : headKey S a = m
    · rw [if_pos ha]
      cases a with
      | nil => rw [headKey_nil] at ha; omega
      | cons x xs =>
        rw [headKey_cons] at ha
        subst ha
        rw [realContent_cons, realContent_cons, List.tail_cons,
          realOf_cons_of_lt xs hm, List.cons_append]
    · rw [if_neg ha]
      have h2 : ∃ r ∈ t, headKey S r = m := by
        obtain ⟨r, hr, hd⟩ := h
        rcases List.mem_cons.mp hr with h4 | h4
        · subst h4; exact absurd hd ha
        · exact ⟨r, h4, hd⟩
      calc realContent S (a :: t)
          = realOf S a ++ realContent S t := rfl
        _ ~ realOf S a ++ (m :: realContent S (popHead S m t)) :=
            (ih h2).append_left _
        _ ~ m :: (realOf S a ++ realContent S (popHead S m t)) := List.perm_middle
        _ = m :: realContent S (a :: popHead S m t) := by rw [realContent_cons]

theorem drainFuel_perm {S : Nat} : ∀ {f : Nat} {rs : List (List Nat)},
    RunsSorted rs → totalLen rs ≤ f → drainFuel S f rs ~ realContent S rs := by
  intro f
  induction f with
  | zero =>
    intro rs hs hf
    rw [drainFuel_zero, realContent_eq_nil_of_totalLen (Nat.le_zero.mp hf)]
  | succ f ih =>
    intro rs hs hf
    rw [drainFuel_succ]
    split
    next hlt =>
      have hex := exists_headKey_eq hlt
      have hpop := totalLen_popHead hlt hex
      have h1 : drainFuel S f (popHead S (minHead S rs) rs) ~
          realContent S (popHead S (minHead S rs) rs) :=
        ih (runsSorted_popHead hs) (by omega)
      exact (h1.cons _).trans (realContent_perm_popHead hlt hex).symm
    next hlt => rw [realContent_eq_nil hs hlt]

theorem heap_sort_records_sorted {S : Nat} {rs : List (List Nat)} (hs : RunsSorted rs) :
    List.Sorted (· ≤ ·) (heap_sort_records S rs) :=
  drainFuel_sorted hs

theorem heap_sort_records_perm {S : Nat} {rs : List (List Nat)} (hs : RunsSorted rs) :
    heap_sort_records S rs ~ realContent S rs :=
  drainFuel_perm hs (le_refl _)

theorem mem_heap_sort_records_lt {S : Nat} {rs : List (List Nat)} {x : Nat}
    (h : x ∈ heap_sort_records S rs) : x < S :=
  mem_drainFuel_lt h

/-! ## Batching: chunks of K runs -/

theorem chunkFuel_nil (K f : Nat) : chunkFuel K f ([] : List α) = [] := by
  cases f <;> rfl

theorem chunkFuel_zero_cons (K : Nat) (a : α) (t : List α) :
    chunkFuel K 0 (a :: t) = [a :: t] := rfl

theorem chunkFuel_succ_cons (K f : Nat) (a : α) (t : List α) :
    chunkFuel K (f + 1) (a :: t) =
      (a :: t).take K :: chunkFuel K f ((a :: t).drop K) := rfl

theorem flatten_chunkFuel (K : Nat) : ∀ (f : Nat) (l : List α),
    (chunkFuel K f l).flatten = l := by
  intro f
  induction f with
  | zero =>
    intro l
    cases l with
    | nil => rfl
    | cons a t => simp [chunkFuel_zero_cons]
  | succ f ih =>
    intro l
    cases l with
    | nil => rfl
    | cons a t =>
      rw [chunkFuel_succ_cons, List.flatten_cons, ih, List.take_append_drop]

theorem flatten_chunks (K : Nat) (l : List α) : (chunks K l).flatten = l :=
  flatten_chunkFuel K l.length l

theorem mem_of_mem_chunks {K : Nat} {l : List α} {c : List α} (hc : c ∈ chunks K l) :
    ∀ a ∈ c, a ∈ l := by
  intro a ha
  have : a ∈ (chunks K l).flatten := List.mem_flatten.mpr ⟨c, hc, ha⟩
  rwa [flatten_chunks] at this

/-! ## One BATCHING level preserves sortedness and real content -/

theorem heap_sort_level_one (S : Nat) (rs : List (List Nat)) :
    heap_sort_level S 1 rs = heap_sort_records S rs ++ [S] := by
  rw [heap_sort_level, if_neg (by omega : ¬ (1:Nat) = 0)]

theorem sorted_heap_sort_level_one {S : Nat} {rs : List (List Nat)} (hs : RunsSorted rs) :
    List.Sorted (· ≤ ·) (heap_sort_level S 1 rs) := by
  rw [heap_sort_level_one]
  refine List.pairwise_append.mpr
    ⟨heap_sort_records_sorted hs, List.sorted_singleton S, ?_⟩
  intro x hx y hy
  rw [List.mem_singleton.mp hy]
  exact le_of_lt (mem_heap_sort_records_lt hx)

theorem realOf_heap_sort_level_one (S : Nat) (rs : List (List Nat)) :
    realOf S (heap_sort_level S 1 rs) = heap_sort_records S rs := by
  rw [heap_sort_level_one, realOf, List.filter_append]
  have h1 : (heap_sort_records S rs).filter (fun x => decide (x < S)) =
      heap_sort_records S rs :=
    List.filter_eq_self.mpr (fun a ha => decide_eq_true (mem_heap_sort_records_lt ha))
  have h2 : [S].filter (fun x => decide (x < S)) = [] := by simp
  rw [h1, h2, List.append_nil]

theorem runsSorted_doLevel {S K : Nat} {rs : List (List Nat)} (hs : RunsSorted rs) :
    RunsSorted (doLevel S K rs) := by
  intro r hr
  rw [doLevel] at hr
  obtain ⟨b, hb, hbr⟩ := List.mem_map.mp hr
  rw [← hbr]
  exact sorted_heap_sort_level_one (fun q hq => hs q (mem_of_mem_chunks hb q hq))

theorem realContent_map_merge {S : Nat} : ∀ (chl : List (List (List Nat))),
    (∀ b ∈ chl, RunsSorted b) →
    List.Perm (realContent S (chl.map (fun b => heap_sort_level S 1 b)))
      (realContent S chl.flatten) := by
  intro chl
  induction chl with
  | nil => intro _; exact List.Perm.refl _
  | cons b t ih =>
    intro h
    rw [List.map_cons, realContent_cons, realOf_heap_sort_level_one,
      List.flatten_cons, realContent_append]
    exact (heap_sort_records_perm (h b (List.mem_cons_self b t))).append
      (ih (fun q hq => h q (List.mem_cons_of_mem b hq)))

theorem realContent_doLevel {S K : Nat} {rs : List (List Nat)} (hs : RunsSorted rs) :
    List.Perm (realContent S (doLevel S K rs)) (realContent S rs) := by
  have h1 := realContent_map_merge (S := S) (chunks K rs)
    (fun b hb q hq => hs q (mem_of_mem_chunks hb q hq))
  rw [flatten_chunks] at h1
  exact h1

/-! ## The multilevel loop preserves sortedness and real content -/

theorem levelsFuel_zero (S K : Nat) (rs : List (List Nat)) :
    levelsFuel S K 0 rs = doLevel S K rs := rfl

theorem levelsFuel_succ (S K f : Nat) (rs : List (List Nat)) :
    levelsFuel S K (f + 1) rs =
      if 2 ≤ K ∧ K < blocksOf K rs.length then levelsFuel S K f (doLevel S K rs)
      else doLevel S K rs := rfl

theorem runsSorted_levelsFuel {S K : Nat} : ∀ {f : Nat} {rs : List (List Nat)},
    RunsSorted rs → RunsSorted (levelsFuel S K f rs) := by
  intro f
  induction f with
  | zero => intro rs hs; exact runsSorted_doLevel hs
  | succ f ih =>
    intro rs hs
    rw [levelsFuel_succ]
    split
    · exact ih (runsSorted_doLevel hs)
    · exact runsSorted_doLevel hs

theorem realContent_levelsFuel {S K : Nat} : ∀ {f : Nat} {rs : List (List Nat)},
    RunsSorted rs →
    List.Perm (realContent S (levelsFuel S K f rs)) (realContent S rs) := by
  intro f
  induction f with
  | zero => intro rs hs; exact realContent_doLevel hs
  | succ f ih =>
    intro rs hs
    rw [levelsFuel_succ]
    split
    · exact (ih (runsSorted_doLevel hs)).trans (realContent_doLevel hs)
    · exact realContent_doLevel hs

/-! ## Whole-program output: sortedness, permutation, totals -/

theorem mergelcpGeneral_out_sorted {S K : Nat} {rs : List (List Nat)}
    (hs : RunsSorted rs) : List.Sorted (· ≤ ·) (mergelcpGeneral S K rs).out :=
  heap_sort_records_sorted (runsSorted_levelsFuel hs)

theorem mergelcpGeneral_out_perm {S K : Nat} {rs : List (List Nat)}
    (hs : RunsSorted rs) :
    List.Perm (mergelcpGeneral S K rs).out (realContent S rs) :=
  (heap_sort_records_perm (runsSorted_levelsFuel hs)).trans
    (realContent_levelsFuel hs)

theorem mergelcp_out_sorted {S K : Nat} {rs : List (List Nat)} (hs : RunsSorted rs) :
    List.Sorted (· ≤ ·) (mergelcp S K rs).out := by
  rw [mergelcp]
  split
  · exact heap_sort_records_sorted hs
  · exact mergelcpGeneral_out_sorted hs

theorem mergelcp_out_perm {S K : Nat} {rs : List (List Nat)} (hs : RunsSorted rs) :
    List.Perm (mergelcp S K rs).out (realContent S rs) := by
  rw [mergelcp]
  split
  · exact heap_sort_records_perm hs
  · exact mergelcpGeneral_out_perm hs

theorem mergelcp_total_eq (S K : Nat) (rs : List (List Nat)) :
    (mergelcp S K rs).total = (mergelcp S K rs).out.length := by
  rw [mergelcp]
  split <;> rfl

theorem realContent_eq_flatten {S : Nat} {rs : List (List Nat)}
    (h : ∀ r ∈ rs, ∀ x ∈ r, x < S) : realContent S rs = rs.flatten := by
  induction rs with
  | nil => rfl
  | cons a t ih =>
    rw [realContent_cons, List.flatten_cons,
      realOf_eq_self (h a (List.mem_cons_self a t)),
      ih (fun r hr => h r (List.mem_cons_of_mem a hr))]

/-! ## Counting batches: blocks versus produced runs -/

theorem chunkFuel_succ_eq {K : Nat} (hK : 1 ≤ K) : ∀ (f : Nat) (l : List α),
    l.length ≤ f → chunkFuel K (f + 1) l = chunkFuel K f l := by
  intro f
  induction f with
  | zero =>
    intro l hl
    have h0 : l = [] := List.length_eq_zero.mp (Nat.le_zero.mp hl)
    subst h0; rfl
  | succ f ih =>
    intro l hl
    cases l with
    | nil => rw [chunkFuel_nil, chunkFuel_nil]
    | cons a t =>
      rw [chunkFuel_succ_cons, chunkFuel_succ_cons]
      have h1 : ((a :: t).drop K).length ≤ f := by
        rw [List.length_drop, List.length_cons]
        rw [List.length_cons] at hl
        omega
      rw [ih _ h1]

theorem chunkFuel_eq_chunks {K : Nat} (hK : 1 ≤ K) : ∀ (f : Nat) (l : List α),
    l.length ≤ f → chunkFuel K f l = chunks K l := by
  intro f
  induction f with
  | zero =>
    intro l hl
    have h0 : l = [] := List.length_eq_zero.mp (Nat.le_zero.mp hl)
    subst h0; rfl
  | succ f ih =>
    intro l hl
    rcases Nat.lt_or_ge l.length (f + 1) with h | h
    · have h2 : l.length ≤ f := by omega
      rw [chunkFuel_succ_eq hK f l h2, ih l h2]
    · have h2 : l.length = f + 1 := by omega
      rw [chunks, h2]

theorem chunks_cons {K : Nat} (hK : 1 ≤ K) (a : α) (t : List α) :
    chunks K (a :: t) = (a :: t).take K :: chunks K ((a :: t).drop K) := by
  rw [chunks, List.length_cons, chunkFuel_succ_cons]
  congr 1
  apply chunkFuel_eq_chunks hK
  rw [List.length_drop, List.length_cons]
  omega

theorem numChunks_zero (K : Nat) : numChunks K 0 = 0 := rfl

theorem chunks_length_nat {K : Nat} (hK : 1 ≤ K) : ∀ (n : Nat) (l : List Nat),
    l.length = n → (chunks K l).length = numChunks K n := by
  intro n
  induction n using Nat.strong_induction_on with
  | _ n ih =>
    intro l hl
    cases l with
    | nil =>
      have h0 : n = 0 := by rw [← hl]; rfl
      subst h0; rfl
    | cons a t =>
      have hn : 1 ≤ n := by rw [← hl, List.length_cons]; omega
      rw [chunks_cons hK, List.length_cons]
      have hlen1 : ((a :: t).drop K).length = n - K := by
        rw [List.length_drop, hl]
      have e1 : (chunks K ((a :: t).drop K)).length = numChunks K (n - K) :=
        ih (n - K) (by omega) ((a :: t).drop K) hlen1
      obtain ⟨b, u, hbu⟩ : ∃ b u, List.range n = b :: u := by
        cases hr : List.range n with
        | nil =>
          have := List.range_eq_nil.mp hr
          omega
        | cons b u => exact ⟨b, u, rfl⟩
      have hlb : (b :: u).length = n := by rw [← hbu, List.length_range]
      rw [numChunks, hbu, chunks_cons hK, List.length_cons]
      have hlen2 : ((b :: u).drop K).length = n - K := by
        rw [List.length_drop, hlb]
      have e2 : (chunks K ((b :: u).drop K)).length = numChunks K (n - K) :=
        ih (n - K) (by omega) ((b :: u).drop K) hlen2
      rw [e1, e2]

theorem numChunks_rec {K : Nat} (hK : 1 ≤ K) {n : Nat} (hn : 1 ≤ n) :
    numChunks K n = numChunks K (n - K) + 1 := by
  obtain ⟨b, u, hbu⟩ : ∃ b u, List.range n = b :: u := by
    cases hr : List.range n with
    | nil =>
      have := List.range_eq_nil.mp hr
      omega
    | cons b u => exact ⟨b, u, rfl⟩
  have hlb : (b :: u).length = n := by rw [← hbu, List.length_range]
  rw [numChunks, hbu, chunks_cons hK, List.length_cons]
  congr 1
  apply chunks_length_nat hK
  rw [List.length_drop, hlb]

theorem numChunks_div {K : Nat} (hK : 1 ≤ K) : ∀ (n : Nat),
    (K ∣ n → numChunks K n = n / K) ∧ (¬ K ∣ n → numChunks K n = n / K + 1) := by
  intro n
  induction n using Nat.strong_induction_on with
  | _ n ih =>
    rcases Nat.eq_zero_or_pos n with rfl | hn
    · constructor
      · intro _; rw [numChunks_zero, Nat.zero_div]
      · intro h; exact absurd (dvd_zero K) h
    · have hrec := numChunks_rec hK hn
      rcases Nat.lt_or_ge n K with hnK | hnK
      · have h0 : n - K = 0 := by omega
        rw [h0, numChunks_zero] at hrec
        constructor
        · intro hd
          have := Nat.le_of_dvd hn hd
          omega
        · intro _
          rw [hrec, Nat.div_eq_of_lt hnK]
      · have ihm := ih (n - K) (by omega)
        have hdiv : n / K = (n - K) / K + 1 := Nat.div_eq_sub_div (by omega) hnK
        constructor
        · intro hd
          have hd2 : K ∣ (n - K) := Nat.dvd_sub' hd dvd_rfl
          rw [hrec, ihm.1 hd2, hdiv]
        · intro hd
          have hd2 : ¬ K ∣ (n - K) := by
            intro hc
            apply hd
            have he : n = (n - K) + K := by omega
            rw [he]
            exact Nat.dvd_add hc dvd_rfl
          rw [hrec, ihm.2 hd2, hdiv]

theorem chunks_length_eq {K : Nat} (hK : 1 ≤ K) : ∀ (n : Nat) (l : List α),
    l.length = n → (chunks K l).length = numChunks K n := by
  intro n
  induction n using Nat.strong_induction_on with
  | _ n ih =>
    intro l hl
    cases l with
    | nil =>
      have h0 : n = 0 := by rw [← hl]; rfl
      subst h0; rfl
    | cons a t =>
      have hn : 1 ≤ n := by rw [← hl, List.length_cons]; omega
      rw [chunks_cons hK, List.length_cons]
      have hlen1 : ((a :: t).drop K).length = n - K := by
        rw [List.length_drop, hl]
      have e1 : (chunks K ((a :: t).drop K)).length = numChunks K (n - K) :=
        ih (n - K) (by omega) ((a :: t).drop K) hlen1
      rw [e1, numChunks_rec hK hn]

theorem doLevel_length {S K : Nat} (hK : 1 ≤ K) (rs : List (List Nat)) :
    (doLevel S K rs).length = numChunks K rs.length := by
  rw [doLevel, List.length_map]
  exact chunks_length_eq hK rs.length rs rfl

/-! ## File operation traces of main -/

theorem runOps_nil (s : Finset FName) : runOps s [] = s := rfl

theorem runOps_cons (s : Finset FName) (op : FOp) (ops : List FOp) :
    runOps s (op :: ops) = runOps (applyOp s op) ops := rfl

theorem runOps_append (s : Finset FName) : ∀ (l1 l2 : List FOp),
    runOps s (l1 ++ l2) = runOps (runOps s l1) l2 := by
  intro l1
  induction l1 generalizing s with
  | nil => intro l2; rfl
  | cons op ops ih => intro l2; rw [List.cons_append, runOps_cons, runOps_cons, ih]

theorem runOps_levelBody {l : Nat} (hl : 1 ≤ l) :
    runOps (entryFiles l) (levelBody l) = levelFiles l := by
  rcases Nat.lt_or_ge l 2 with h2 | h2
  · have h1 : l = 1 := by omega
    subst h1
    rw [entryFiles, if_pos rfl]
    ext x
    cases x <;>
      simp [levelBody, runOps, applyOp, levelFiles, baseFiles]
  · have h1 : 1 < l := by omega
    rw [entryFiles, if_neg (by omega)]
    ext x
    cases x <;>
      simp [levelBody, runOps, applyOp, levelFiles, baseFiles, h1] <;> omega

theorem entryFiles_succ {l : Nat} (hl : 1 ≤ l) : entryFiles (l + 1) = levelFiles l := by
  rw [entryFiles, if_neg (by omega), Nat.add_sub_cancel]

theorem loopOps_zero (K l n : Nat) : loopOps K 0 l n = (levelBody l, l) := rfl

theorem loopOps_succ (K f l n : Nat) :
    loopOps K (f + 1) l n =
      if 2 ≤ K ∧ K < blocksOf K n then
        (levelBody l ++ (loopOps K f (l + 1) (numChunks K n)).1,
         (loopOps K f (l + 1) (numChunks K n)).2)
      else (levelBody l, l) := rfl

theorem runOps_loopOps (K : Nat) : ∀ (f l n : Nat), 1 ≤ l →
    runOps (entryFiles l) (loopOps K f l n).1 = levelFiles ((loopOps K f l n).2) := by
  intro f
  induction f with
  | zero => intro l n hl; rw [loopOps_zero]; exact runOps_levelBody hl
  | succ f ih =>
    intro l n hl
    rw [loopOps_succ]
    split
    · dsimp only
      rw [runOps_append, runOps_levelBody hl, ← entryFiles_succ hl]
      exact ih (l + 1) (numChunks K n) (by omega)
    · exact runOps_levelBody hl

/-! ## Claim theorems -/

/-- Claim C1: for every completed merge run (each intermediate pass and the
final pass), the sequence of records emitted by repeated pop-min operations
is non-decreasing in the packed key, given that every registered input run
is itself sorted ascending by packed key.  heap_sort_records is the emitted
sequence of one pass, doLevel shows every intermediate output run is again
sorted (so the property propagates to every level), and the final output of
the whole cascade is sorted as well. -/
theorem popmin_sequences_sorted (S K : Nat) (rs : List (List Nat))
    (hs : RunsSorted rs) :
    List.Sorted (· ≤ ·) (heap_sort_records S rs) ∧
    RunsSorted (doLevel S K rs) ∧
    List.Sorted (· ≤ ·) (mergelcp S K rs).out :=
  ⟨heap_sort_records_sorted hs, runsSorted_doLevel hs, mergelcp_out_sorted hs⟩

/-- Witness for C1 at a concrete sorted input. -/
theorem popmin_sequences_sorted_witness :
    List.Sorted (· ≤ ·) (heap_sort_records 255 [[1, 3], [2]]) :=
  (popmin_sequences_sorted 255 2 [[1, 3], [2]] (by decide)).1

/-- Claim C2: for every input whose runs are sorted and hold only real
records (keys below the sentinel), the total reported by the final level-0
pass equals the sum of all counts in the original size index (run lengths),
and the emitted records are exactly the multiset union of all runs. -/
theorem final_pass_conservation (S K : Nat) (rs : List (List Nat)) (_hK : 2 ≤ K)
    (hs : RunsSorted rs) (hr : ∀ r ∈ rs, ∀ x ∈ r, x < S) :
    (mergelcp S K rs).total = (rs.map List.length).sum ∧
    List.Perm (mergelcp S K rs).out rs.flatten := by
  have hperm : List.Perm (mergelcp S K rs).out rs.flatten := by
    have h : List.Perm (mergelcp S K rs).out (realContent S rs) :=
      mergelcp_out_perm hs
    rwa [realContent_eq_flatten hr] at h
  refine ⟨?_, hperm⟩
  rw [mergelcp_total_eq, hperm.length_eq, List.length_flatten]

/-- Witness for C2 at a concrete sorted input. -/
theorem final_pass_conservation_witness :
    (mergelcp 255 2 [[1, 3], [2]]).total = ([[1, 3], [2]].map List.length).sum :=
  (final_pass_conservation 255 2 [[1, 3], [2]] (by decide) (by decide) (by decide)).1

/-- Claim C3: Scenario A: widths 4 and 4, K = 2, three sorted runs of sizes
3, 3 and 2; the cascade produces exactly the values 5 3 9 1 4 2 8 0 in
position order 0..7 and reports total record count 8. -/
theorem scenarioA_output :
    (mergelcp (MAX_KEY 8) 2 scenarioARuns).out.map (lcpOf 4) =
      [5, 3, 9, 1, 4, 2, 8, 0] ∧
    (mergelcp (MAX_KEY 8) 2 scenarioARuns).total = 8 := by decide

/-- Claim C4 counterexample: with K = 2 and exactly K = 2 input runs (a run
count that is less than or equal to K), main does not take the onelevel
skip path: the batch fills up inside the loop, the blocks counter reaches
2, and the intermediate files are created and merged. -/
theorem skip_counterexample :
    (mergelcp (MAX_KEY 1) 2 [[1], [2]]).onelevel = false ∧
    ([[1], [2]] : List (List Nat)).length ≤ 2 := by decide

/-- Claim C4 amended: the skip path is taken iff the run count is nonzero
and STRICTLY below K (the code condition blocks == 1 and level == 1 and
i > 0); whenever it is taken, it produces the same output and total as the
general multi-level path would have. -/
theorem skip_path_characterization (S K : Nat) (rs : List (List Nat))
    (_hK : 2 ≤ K) (hs : RunsSorted rs) :
    ((mergelcp S K rs).onelevel = true ↔ 0 < rs.length ∧ rs.length < K) ∧
    (mergelcp S K rs).out = (mergelcpGeneral S K rs).out ∧
    (mergelcp S K rs).total = (mergelcpGeneral S K rs).total := by
  have hout : (mergelcp S K rs).out = (mergelcpGeneral S K rs).out :=
    List.eq_of_perm_of_sorted
      ((mergelcp_out_perm hs).trans (mergelcpGeneral_out_perm hs).symm)
      (mergelcp_out_sorted hs) (mergelcpGeneral_out_sorted hs)
  refine ⟨?_, hout, ?_⟩
  · rw [mergelcp]
    split
    next h => simp [h]
    next h => simp [mergelcpGeneral, h]
  · rw [mergelcp_total_eq, hout]
    rfl

/-- Witness for C4 amended: one run of two records with K = 3 takes the
skip path and agrees with the general path. -/
theorem skip_path_characterization_witness :
    (mergelcp (MAX_KEY 1) 3 [[5], [7]]).out =
      (mergelcpGeneral (MAX_KEY 1) 3 [[5], [7]]).out :=
  (skip_path_characterization (MAX_KEY 1) 3 [[5], [7]] (by decide) (by decide)).2.1

/-- Claim C5 counterexample: with K = 2 and 4 input runs, the level
produces exactly 2 output runs, which does NOT exceed K, yet the driver
repeats with another level: the repeat guard of the code is blocks > K
with blocks = 1 + 4 / 2 = 3, and the loop trace indeed executes a second
level (last level index 2). -/
theorem repeat_condition_counterexample :
    (doLevel (MAX_KEY 1) 2 [[1], [2], [3], [4]]).length = 2 ∧
    ¬ (2 < 2) ∧
    (2 < blocksOf 2 4) ∧
    (loopOps 2 4 1 4).2 = 2 := by decide

/-- Claim C5 amended: after a level over n input runs the driver repeats
iff blocks = 1 + n / K exceeds K (equivalently iff K * K <= n).  When K
does not divide n this agrees with the claim (blocks equals the number of
output runs), but when K divides n the blocks counter is one more than the
number of output runs, so a level producing exactly K runs is followed by
one more level.  The final heap capacity blocksOf is always at least the
surviving run count numChunks. -/
theorem repeat_condition_characterization (S K n : Nat) (rs : List (List Nat))
    (hK : 2 ≤ K) (hn : rs.length = n) :
    (doLevel S K rs).length = numChunks K n ∧
    (¬ K ∣ n → blocksOf K n = numChunks K n) ∧
    (K ∣ n → blocksOf K n = numChunks K n + 1) ∧
    numChunks K n ≤ blocksOf K n ∧
    (K < blocksOf K n ↔ K * K ≤ n) := by
  have hK1 : 1 ≤ K := by omega
  have hd := numChunks_div hK1 n
  refine ⟨?_, ?_, ?_, ?_, ?_⟩
  · rw [← hn]; exact doLevel_length hK1 rs
  · intro h; rw [hd.2 h, blocksOf, Nat.add_comm]
  · intro h; rw [hd.1 h, blocksOf, Nat.add_comm]
  · by_cases h : K ∣ n
    · rw [hd.1 h, blocksOf]
      exact Nat.le_add_left _ _
    · rw [hd.2 h, blocksOf, Nat.add_comm]
  · rw [blocksOf, Nat.add_comm, Nat.lt_succ_iff]
    exact Nat.le_div_iff_mul_le (by omega)

/-- Witness for C5 amended at K = 2, n = 4. -/
theorem repeat_condition_characterization_witness :
    numChunks 2 4 ≤ blocksOf 2 4 ∧ (2 < blocksOf 2 4 ↔ 2 * 2 ≤ 4) :=
  ⟨(repeat_condition_characterization (MAX_KEY 1) 2 4 [[1], [2], [3], [4]]
      (by decide) (by decide)).2.2.2.1,
   (repeat_condition_characterization (MAX_KEY 1) 2 4 [[1], [2], [3], [4]]
      (by decide) (by decide)).2.2.2.2⟩

/-- Claim C6 counterexample: a level-1 batch holding one single real
record writes 2 records (the record plus the sentinel terminator), and the
sum counter incremented per written record, terminator included, is what
main writes to the size index: 2, not the 1 real merged record the claim
asserts. -/
theorem size_count_counterexample :
    (heap_sort_level (MAX_KEY 1) 1 [[7]]).length = 2 ∧
    (heap_sort_records (MAX_KEY 1) [[7]]).length = 1 ∧
    ¬ ((2 : Nat) = 1) := by decide

/-- Claim C6 amended: every level other than 0 writes one sentinel pair as
an explicit terminator after draining the batch, and the record count
written to the size index INCLUDES this terminator: it equals the number
of real merged records plus one, which is exactly the number of records
written to the output run file; every record before the terminator is a
real record (key strictly below the sentinel). -/
theorem level_terminator_and_count (S : Nat) (rs : List (List Nat)) :
    heap_sort_level S 1 rs = heap_sort_records S rs ++ [S] ∧
    (heap_sort_level S 1 rs).length = (heap_sort_records S rs).length + 1 ∧
    (∀ x ∈ heap_sort_records S rs, x < S) := by
  refine ⟨heap_sort_level_one S rs, ?_, fun x hx => mem_heap_sort_records_lt hx⟩
  rw [heap_sort_level_one, List.length_append]
  rfl

/-- Witness for C6 amended: the single record of the concrete batch is a
real record. -/
theorem level_terminator_and_count_witness : (7 : Nat) < MAX_KEY 1 :=
  (level_terminator_and_count (MAX_KEY 1) [[7]]).2.2 7 (by decide)

/-- Claim C7 counterexample: the startup validation accepts pos_size = 13
(above the claimed ceiling of 12) with lcp_size = 3, and even accepts the
negative width -2 paired with 5, because the code checks only that the sum
is at most 16 and that neither width is zero (mergelcp.c lines 157 to
159). -/
theorem widths_counterexample :
    widths_ok 13 3 = true ∧ ¬ specWidthsOK 13 3 ∧
    widths_ok (-2) 5 = true ∧ ¬ specWidthsOK (-2) 5 := by decide

/-- Claim C7 amended: the widths are validated at startup before any file
is opened, but the accepted set is exactly pos_size + lcp_size <= 16 with
both widths nonzero; every configuration the spec allows (each width in
[1, 12], sum at most 16) is accepted, while single widths above 12 and
negative widths can be accepted too. -/
theorem widths_validation_characterization (p l : Int) :
    (widths_ok p l = true ↔ (p + l ≤ 16 ∧ p ≠ 0 ∧ l ≠ 0)) ∧
    (specWidthsOK p l → widths_ok p l = true) := by
  constructor
  · rw [widths_ok]
    split_ifs with h1 h2 h3 <;> simp <;> omega
  · intro hs
    obtain ⟨a1, a2, a3, a4, a5⟩ := hs
    rw [widths_ok]
    split_ifs with h1 h2 h3
    · exfalso; omega
    · exfalso; omega
    · exfalso; omega
    · rfl

/-- Witness for C7 amended: the spec-valid configuration 4, 4 is
accepted. -/
theorem widths_validation_witness : widths_ok 4 4 = true :=
  (widths_validation_characterization 4 4).2 (by decide)

/-- Claim C8: an input with zero runs produces an empty output with
reported total 0; no batch is formed (chunks of the empty run list is
empty, so heap_sort_level is never invoked during batching) and the final
pass drains an empty engine, emitting nothing. -/
theorem zero_runs_empty (S K : Nat) (_hK : 2 ≤ K) :
    mergelcp S K [] = ⟨[], 0, false⟩ ∧
    chunks K ([] : List (List Nat)) = [] ∧
    heap_sort_records S [] = [] := by
  exact ⟨rfl, rfl, rfl⟩

/-- Witness for C8 at K = 2. -/
theorem zero_runs_empty_witness : mergelcp 255 2 [] = ⟨[], 0, false⟩ :=
  (zero_runs_empty 255 2 (by decide)).1

/-- Claim C9: for every sorted input and capacities K and L (both at least
2, distinct), the cascade produces identical final output: the same key
sequence, the same value-only output file contents, and the same reported
total. -/
theorem cascade_capacity_equivalence (S w K L : Nat) (rs : List (List Nat))
    (_hK : 2 ≤ K) (_hL : 2 ≤ L) (_hne : K ≠ L) (hs : RunsSorted rs) :
    (mergelcp S K rs).out = (mergelcp S L rs).out ∧
    (mergelcp S K rs).out.map (lcpOf w) = (mergelcp S L rs).out.map (lcpOf w) ∧
    (mergelcp S K rs).total = (mergelcp S L rs).total := by
  have hout : (mergelcp S K rs).out = (mergelcp S L rs).out :=
    List.eq_of_perm_of_sorted
      ((mergelcp_out_perm hs).trans (mergelcp_out_perm hs).symm)
      (mergelcp_out_sorted hs) (mergelcp_out_sorted hs)
  exact ⟨hout, by rw [hout], by rw [mergelcp_total_eq, mergelcp_total_eq, hout]⟩

/-- Witness for C9 at K = 2 versus L = 3 on a concrete sorted input. -/
theorem cascade_capacity_equivalence_witness :
    (mergelcp 255 2 [[0, 2], [1]]).out = (mergelcp 255 3 [[0, 2], [1]]).out :=
  (cascade_capacity_equivalence 255 1 2 3 [[0, 2], [1]]
    (by decide) (by decide) (by decide) (by decide)).1

/-- Claim C10: on every successful completion the trace of file
operations of main leaves exactly the final output file: the original
inputs FILE.pair.lcp and FILE.size.lcp are removed (mergelcp.c lines 376
to 381), every intermediate level file is removed, and only the output
FILE.<lcp_size>.lcp remains. -/
theorem inputs_removed_on_success (K n : Nat) (_hK : 2 ≤ K) :
    mainFiles K n = {FName.outF} ∧
    FName.pairIn ∉ mainFiles K n ∧ FName.sizeIn ∉ mainFiles K n := by
  have h : mainFiles K n = {FName.outF} := by
    rw [mainFiles, mainOps]
    split
    · decide
    · rw [runOps_append]
      have h1 := runOps_loopOps K n 1 n (le_refl 1)
      rw [entryFiles, if_pos rfl] at h1
      rw [h1]
      ext x
      cases x <;> simp [runOps, applyOp, levelFiles, baseFiles]
  refine ⟨h, ?_, ?_⟩ <;> rw [h] <;> decide

/-- Witness for C10 at K = 2, n = 3. -/
theorem inputs_removed_on_success_witness : mainFiles 2 3 = {FName.outF} :=
  (inputs_removed_on_success 2 3 (by decide)).1

end MergeLcp
